import Mathlib

/-!
Verification development for the `ip_diffim` candidate-detection and
basis/regularization subsystem.

The embedding follows the C++ sources:
  * `src/src/KernelCandidateDetection.cc` — candidate detection: the
    constructor's bad-bit-mask computation, `apply`, and `growCandidate`;
  * `src/include/lsst/ip/diffim/BasisSets.h` — declarations (with default
    arguments) of the regularization builder and the kernel renormalizer.

Images are modelled as a bounding box plus a total mask function; footprints
(irregular pixel regions) as lists of integer pixel coordinates; the
Manhattan-stencil dilation, bounding boxes, sub-image extraction and the
masked-pixel scan (`FindSetBits`) are modelled directly.  The C++ recursion
of `growCandidate` (an oversized footprint is replaced by its single-pixel
core and re-processed) is expressed with an explicit fuel parameter, since
for pathological configurations (`fpNpixMax = 0`) the C++ recursion does not
terminate; fuel `0` stands for that divergence.
-/

namespace IpDiffim

/-- An integer 2-D box with inclusive bounds, mirroring `afw::geom::Box2I`.
A box with `maxX < minX` or `maxY < minY` is empty. -/
structure Box2I where
  minX : Int
  minY : Int
  maxX : Int
  maxY : Int
deriving DecidableEq, Repr

/-- The canonical empty box. -/
def Box2I.emptyBox : Box2I := ⟨0, 0, -1, -1⟩

/-- Whether a box is empty (holds no pixels). -/
def Box2I.isEmptyBox (b : Box2I) : Bool :=
  decide (b.maxX < b.minX) || decide (b.maxY < b.minY)

/-- Point membership in a box. -/
def Box2I.containsPt (b : Box2I) (x y : Int) : Bool :=
  decide (b.minX ≤ x) && decide (x ≤ b.maxX) &&
  decide (b.minY ≤ y) && decide (y ≤ b.maxY)

/-- Box containment, as `afw::geom::Box2I::contains`: an empty box is
contained in every box; otherwise both extreme corners must lie inside. -/
def Box2I.containsBox (b other : Box2I) : Bool :=
  other.isEmptyBox ||
    (b.containsPt other.minX other.minY && b.containsPt other.maxX other.maxY)

/-- All pixel coordinates of a box, row-major. -/
def Box2I.points (b : Box2I) : List (Int × Int) :=
  (List.range (b.maxX - b.minX + 1).toNat).flatMap fun i =>
    (List.range (b.maxY - b.minY + 1).toNat).map fun j =>
      (b.minX + (Nat.cast i : Int), b.minY + (Nat.cast j : Int))

/-- A footprint: the (irregular) set of pixel coordinates of its span set. -/
abbrev Footprint := List (Int × Int)

/-- `Footprint::getArea`: the number of pixels of the span set. -/
def getArea (fp : Footprint) : Nat := fp.length

/-- The bounding box of a footprint (`Footprint::getBBox`): coordinate-wise
minima and maxima of its pixels; empty box for an empty footprint. -/
def bboxOf (fp : Footprint) : Box2I :=
  match fp with
  | [] => Box2I.emptyBox
  | p :: rest =>
    { minX := rest.foldl (fun a q => min a q.1) p.1
      minY := rest.foldl (fun a q => min a q.2) p.2
      maxX := rest.foldl (fun a q => max a q.1) p.1
      maxY := rest.foldl (fun a q => max a q.2) p.2 }

/-- All offsets `(dx, dy)` with `|dx| + |dy| ≤ r`: the diamond (L1-ball)
structuring element of `afw::geom::Stencil::MANHATTAN` at radius `r`. -/
def manhattanOffsets (r : Nat) : List (Int × Int) :=
  (List.range (2 * r + 1)).flatMap fun i =>
    (List.range (2 * r + 1)).filterMap fun j =>
      let dx : Int := (Nat.cast i : Int) - (Nat.cast r : Int)
      let dy : Int := (Nat.cast j : Int) - (Nat.cast r : Int)
      if dx.natAbs + dy.natAbs ≤ r then some (dx, dy) else none

/-- `SpanSet::dilated(r, Stencil::MANHATTAN)`: every pixel of the footprint
translated by every offset of the L1-ball of radius `r`. -/
def dilate (r : Nat) (fp : Footprint) : Footprint :=
  fp.flatMap fun p => (manhattanOffsets r).map fun d => (p.1 + d.1, p.2 + d.2)

/-- A masked image: its bounding box and its per-pixel mask bitfield
(`afw::image::MaskedImage`, of which only the mask channel matters here). -/
structure MaskedImage where
  bbox : Box2I
  mask : Int → Int → Nat

/-- Rectangular sub-image extraction by bounding box.  The `afw` sub-image
constructor raises (an exception the caller catches) exactly when the
requested box is not contained in the parent image; `none` models that
exception. -/
def extractSub (img : MaskedImage) (b : Box2I) : Option MaskedImage :=
  if img.bbox.containsBox b then some { bbox := b, mask := img.mask } else none

/-- `FindSetBits::apply` followed by `getBits`: the bitwise OR of every mask
pixel of the image. -/
def maskOrOver (img : MaskedImage) : Nat :=
  img.bbox.points.foldl (fun a p => a ||| img.mask p.1 p.2) 0

/-- The `try` block of `growCandidate`: extract both sub-images over the
grown bounding box, scan each mask, and report whether the candidate failed
(any extraction exception, or either OR-of-mask-bits meets the bad-bit
mask). -/
def subimageHasFailed (tImg sImg : MaskedImage) (b : Box2I) (badBitMask : Nat) : Bool :=
  match extractSub tImg b, extractSub sImg b with
  | some tSub, some sSub =>
    decide (maskOrOver tSub &&& badBitMask ≠ 0) ||
    decide (maskOrOver sSub &&& badBitMask ≠ 0)
  | _, _ => true

/-- The configuration state of a `KernelCandidateDetection` object: the
policy integers consumed by `growCandidate` and the bad-bit mask computed by
the constructor.  The grown footprint list is threaded explicitly. -/
structure KernelCandidateDetection where
  fpNpixMax : Int
  fpGrowPix : Nat
  badBitMask : Nat

/-- `static_cast<std::size_t>` of a C++ `int`: two's-complement conversion,
i.e. reduction modulo `2^64`. -/
def toSizeT (n : Int) : Nat := (n % (2 ^ 64 : Int)).toNat

/-- The single-pixel core a too-large footprint is replaced with: a 1×1 box
at the truncated midpoint of the original bounding box (C++ `int(0.5 * (min
+ max))` truncates toward zero, as does `Int.tdiv`). -/
def coreOf (fp : Footprint) : Footprint :=
  let b := bboxOf fp
  [(Int.tdiv (b.minX + b.maxX) 2, Int.tdiv (b.minY + b.maxY) 2)]

/-- The part of `growCandidate` after the oversize guard: dilate by
`fpGrowPix` under the Manhattan stencil, reject if the grown bounding box is
not contained in the template image, reject if the sub-image check failed,
otherwise append the grown footprint to the candidate list and accept. -/
def growTail (det : KernelCandidateDetection) (fp : Footprint)
    (tImg sImg : MaskedImage) (st : List Footprint) : Bool × List Footprint :=
  let fpGrow := dilate det.fpGrowPix fp
  let fpGrowBBox := bboxOf fpGrow
  if !(tImg.bbox.containsBox fpGrowBBox) then
    (false, st)
  else if subimageHasFailed tImg sImg fpGrowBBox det.badBitMask then
    (false, st)
  else
    (true, st ++ [fpGrow])

/-- `KernelCandidateDetection::growCandidate`, with explicit fuel for the
oversize recursion (the C++ recursion is unbounded; fuel `0` models its
divergence, returning reject).  If the footprint's area exceeds
`size_t(fpNpixMax)`, it is replaced by its single-pixel core and
re-processed; otherwise the grow/validate/store tail runs. -/
def growCandidate (det : KernelCandidateDetection) :
    Nat → Footprint → MaskedImage → MaskedImage → List Footprint →
    Bool × List Footprint
  | 0, _, _, _, st => (false, st)
  | fuel + 1, fp, tImg, sImg, st =>
    if getArea fp > toSizeT det.fpNpixMax then
      growCandidate det fuel (coreOf fp) tImg sImg st
    else
      growTail det fp tImg sImg st

/-- The candidate loop of `KernelCandidateDetection::apply`: fold
`growCandidate` over the detected raw footprints, threading the candidate
list. -/
def applyFold (det : KernelCandidateDetection) (fuel : Nat)
    (tImg sImg : MaskedImage) (raws : List Footprint)
    (st : List Footprint) : List Footprint :=
  raws.foldl (fun acc fp => (growCandidate det fuel fp tImg sImg acc).snd) st

/-- `KernelCandidateDetection::apply` downstream of the external detector:
the raw footprint list stands for the detector's output; the candidate list
is cleared, every raw footprint is processed, and if no candidate was
accepted an exception is raised to the caller. -/
def applyModel (det : KernelCandidateDetection) (fuel : Nat)
    (tImg sImg : MaskedImage) (raws : List Footprint) :
    Except String (List Footprint) :=
  let final := applyFold det fuel tImg sImg raws []
  if final.length = 0 then
    Except.error "Unable to find any footprints for Psf matching"
  else
    Except.ok final

/-- The bad-bit-mask computation of the `KernelCandidateDetection`
constructor: starting from `0`, OR in the bit mask of every configured
plane name the registry recognizes; an unrecognized name (the registry's
exception, modelled by `none`) is caught locally and skipped. -/
def computeBadBitMask (registry : String → Option Nat) (names : List String) : Nat :=
  names.foldl
    (fun acc nm =>
      match registry nm with
      | some b => acc ||| b
      | none => acc)
    0

/-- `BoundStyle` of `BasisSets.h`. -/
inductive BoundStyle where
  | UNWRAPPED
  | WRAPPED
  | TAPERED
  | NBOUND
deriving DecidableEq, Repr

/-- `DiffStyle` of `BasisSets.h`. -/
inductive DiffStyle where
  | FORWARD_DIFFERENCE
  | CENTRAL_DIFFERENCE
  | NDIFF
deriving DecidableEq, Repr

/-- The argument list of `generateFiniteDifferenceRegularization`, with the
default arguments of its declaration in `BasisSets.h` as default field
values. -/
structure FdrCall where
  width : Nat
  height : Nat
  order : Nat
  boundaryStyle : BoundStyle := BoundStyle.WRAPPED
  differenceStyle : DiffStyle := DiffStyle.FORWARD_DIFFERENCE
deriving DecidableEq, Repr

/-- A call of `generateFiniteDifferenceRegularization` that passes only the
required arguments, leaving both defaulted parameters at their declared
defaults. -/
def fdrDefaultCall (w h o : Nat) : FdrCall :=
  { width := w, height := h, order := o }

/-- The pixel sum of a kernel (`kSum`); kernels are modelled as lists of
exact rational pixel values. -/
def kSum (k : List ℚ) : ℚ := k.sum

/-- `std::numeric_limits<double>::epsilon()`, as an exact rational. -/
def dblEpsilon : ℚ := 1 / 2 ^ 52

/-- Modelled from the spec: the per-kernel normalization step of
`renormalizeKernelList`, whose implementation (`BasisSets.cc`) is not among
the sources; per the doc comment of `BasisSets.h`, a kernel whose sum
exceeds `std::numeric_limits<double>::epsilon()` is divided by its sum
(giving it a kSum of 1), and is otherwise left unchanged. -/
def normalizeKernel (k : List ℚ) : List ℚ :=
  if dblEpsilon < kSum k then k.map fun v => v / kSum k else k

/-- Pixel-wise subtraction of two equally-sized kernels. -/
def subtractKernel (a b : List ℚ) : List ℚ :=
  List.zipWith (fun x y => x - y) a b

/-- Modelled from the spec: `renormalizeKernelList`, whose implementation
(`BasisSets.cc`) is not among the sources.  Per the doc comment of
`BasisSets.h` and §4.2 of the specification: each kernel is first divided
by its kernel sum, and then the first (normalized) component is subtracted
from every subsequent kernel. -/
def renormalizeKernelList (ks : List (List ℚ)) : List (List ℚ) :=
  match ks with
  | [] => []
  | k0 :: rest =>
    let k0n := normalizeKernel k0
    k0n :: rest.map fun k => subtractKernel (normalizeKernel k) k0n

/-! ### Basic characterizations -/

theorem containsPt_iff (b : Box2I) (x y : Int) :
    b.containsPt x y = true ↔
      b.minX ≤ x ∧ x ≤ b.maxX ∧ b.minY ≤ y ∧ y ≤ b.maxY := by
  simp [Box2I.containsPt, and_assoc]

theorem isEmptyBox_iff (b : Box2I) :
    b.isEmptyBox = true ↔ b.maxX < b.minX ∨ b.maxY < b.minY := by
  simp [Box2I.isEmptyBox]

theorem containsBox_iff (b o : Box2I) :
    b.containsBox o = true ↔
      (o.maxX < o.minX ∨ o.maxY < o.minY) ∨
        (b.containsPt o.minX o.minY = true ∧ b.containsPt o.maxX o.maxY = true) := by
  simp [Box2I.containsBox, isEmptyBox_iff]

theorem mem_points_iff (b : Box2I) (x y : Int) :
    (x, y) ∈ b.points ↔ b.minX ≤ x ∧ x ≤ b.maxX ∧ b.minY ≤ y ∧ y ≤ b.maxY := by
  simp only [Box2I.points, List.mem_flatMap, List.mem_map, List.mem_range]
  constructor
  · rintro ⟨i, hi, j, hj, heq⟩
    have hx : b.minX + (Nat.cast i : Int) = x := congrArg Prod.fst heq
    have hy : b.minY + (Nat.cast j : Int) = y := congrArg Prod.snd heq
    omega
  · rintro ⟨h1, h2, h3, h4⟩
    refine ⟨(x - b.minX).toNat, by omega, (y - b.minY).toNat, by omega, ?_⟩
    have hx : b.minX + (Nat.cast (x - b.minX).toNat : Int) = x := by omega
    have hy : b.minY + (Nat.cast (y - b.minY).toNat : Int) = y := by omega
    rw [hx, hy]

/-! ### Fold min/max bounds for bounding boxes -/

theorem foldl_min_le_init (f : Int × Int → Int) (l : List (Int × Int)) (a : Int) :
    l.foldl (fun c q => min c (f q)) a ≤ a := by
  induction l generalizing a with
  | nil => simp
  | cons p t ih =>
    simp only [List.foldl_cons]
    exact le_trans (ih (min a (f p))) (min_le_left _ _)

theorem foldl_min_le_mem (f : Int × Int → Int) (l : List (Int × Int)) (a : Int)
    (q : Int × Int) (hq : q ∈ l) :
    l.foldl (fun c z => min c (f z)) a ≤ f q := by
  induction l generalizing a with
  | nil => cases hq
  | cons p t ih =>
    simp only [List.foldl_cons]
    rcases List.mem_cons.mp hq with h | h
    · subst h
      exact le_trans (foldl_min_le_init f t _) (min_le_right _ _)
    · exact ih _ h

theorem le_foldl_min (f : Int × Int → Int) (l : List (Int × Int)) (a c : Int)
    (ha : c ≤ a) (hl : ∀ q ∈ l, c ≤ f q) :
    c ≤ l.foldl (fun acc z => min acc (f z)) a := by
  induction l generalizing a with
  | nil => simpa using ha
  | cons p t ih =>
    simp only [List.foldl_cons]
    exact ih _ (le_min ha (hl p (List.mem_cons_self p t)))
      (fun q hq => hl q (List.mem_cons_of_mem _ hq))

theorem init_le_foldl_max (f : Int × Int → Int) (l : List (Int × Int)) (a : Int) :
    a ≤ l.foldl (fun c q => max c (f q)) a := by
  induction l generalizing a with
  | nil => simp
  | cons p t ih =>
    simp only [List.foldl_cons]
    exact le_trans (le_max_left _ _) (ih (max a (f p)))

theorem mem_le_foldl_max (f : Int × Int → Int) (l : List (Int × Int)) (a : Int)
    (q : Int × Int) (hq : q ∈ l) :
    f q ≤ l.foldl (fun c z => max c (f z)) a := by
  induction l generalizing a with
  | nil => cases hq
  | cons p t ih =>
    simp only [List.foldl_cons]
    rcases List.mem_cons.mp hq with h | h
    · subst h
      exact le_trans (le_max_right _ _) (init_le_foldl_max f t _)
    · exact ih _ h

theorem foldl_max_le (f : Int × Int → Int) (l : List (Int × Int)) (a c : Int)
    (ha : a ≤ c) (hl : ∀ q ∈ l, f q ≤ c) :
    l.foldl (fun acc z => max acc (f z)) a ≤ c := by
  induction l generalizing a with
  | nil => simpa using ha
  | cons p t ih =>
    simp only [List.foldl_cons]
    exact ih _ (max_le ha (hl p (List.mem_cons_self p t)))
      (fun q hq => hl q (List.mem_cons_of_mem _ hq))

/-- Every pixel of a footprint lies inside its bounding box. -/
theorem bboxOf_containsPt (fp : Footprint) (p : Int × Int) (hp : p ∈ fp) :
    (bboxOf fp).containsPt p.1 p.2 = true := by
  match fp with
  | [] => cases hp
  | q :: rest =>
    rw [containsPt_iff]
    rcases List.mem_cons.mp hp with h | h
    · subst h
      exact ⟨foldl_min_le_init _ _ _, init_le_foldl_max _ _ _,
        foldl_min_le_init _ _ _, init_le_foldl_max _ _ _⟩
    · exact ⟨foldl_min_le_mem _ _ _ p h, mem_le_foldl_max _ _ _ p h,
        foldl_min_le_mem _ _ _ p h, mem_le_foldl_max _ _ _ p h⟩

/-- A box containing every pixel of a nonempty footprint contains its
bounding box. -/
theorem containsBox_bboxOf (B : Box2I) (p : Int × Int) (rest : Footprint)
    (hall : ∀ q ∈ p :: rest, B.containsPt q.1 q.2 = true) :
    B.containsBox (bboxOf (p :: rest)) = true := by
  rw [containsBox_iff]
  right
  have hall' : ∀ q ∈ p :: rest, B.minX ≤ q.1 ∧ q.1 ≤ B.maxX ∧
      B.minY ≤ q.2 ∧ q.2 ≤ B.maxY := by
    intro q hq
    exact (containsPt_iff B q.1 q.2).mp (hall q hq)
  have hp := hall' p (List.mem_cons_self p rest)
  constructor
  · rw [containsPt_iff]
    refine ⟨?_, ?_, ?_, ?_⟩
    · exact le_foldl_min _ _ _ _ hp.1
        (fun q hq => (hall' q (List.mem_cons_of_mem _ hq)).1)
    · exact le_trans (foldl_min_le_init _ _ _) hp.2.1
    · exact le_foldl_min _ _ _ _ hp.2.2.1
        (fun q hq => (hall' q (List.mem_cons_of_mem _ hq)).2.2.1)
    · exact le_trans (foldl_min_le_init _ _ _) hp.2.2.2
  · rw [containsPt_iff]
    refine ⟨?_, ?_, ?_, ?_⟩
    · exact le_trans hp.1 (init_le_foldl_max _ _ _)
    · exact foldl_max_le _ _ _ _ hp.2.1
        (fun q hq => (hall' q (List.mem_cons_of_mem _ hq)).2.1)
    · exact le_trans hp.2.2.1 (init_le_foldl_max _ _ _)
    · exact foldl_max_le _ _ _ _ hp.2.2.2
        (fun q hq => (hall' q (List.mem_cons_of_mem _ hq)).2.2.2)

/-! ### Dilation -/

theorem zero_mem_manhattanOffsets (r : Nat) : ((0 : Int), (0 : Int)) ∈ manhattanOffsets r := by
  simp only [manhattanOffsets, List.mem_flatMap, List.mem_filterMap, List.mem_range]
  refine ⟨r, by omega, r, by omega, ?_⟩
  simp

theorem mem_dilate_self (r : Nat) (fp : Footprint) (p : Int × Int) (hp : p ∈ fp) :
    p ∈ dilate r fp := by
  simp only [dilate, List.mem_flatMap, List.mem_map]
  exact ⟨p, hp, (0, 0), zero_mem_manhattanOffsets r, by simp⟩

theorem dilate_nil (r : Nat) : dilate r [] = [] := rfl

/-! ### Bitwise OR folds and masked-pixel scans -/

theorem or_eq_zero_iff (a b : Nat) : a ||| b = 0 ↔ a = 0 ∧ b = 0 := by
  constructor
  · intro h
    constructor
    · refine Nat.eq_of_testBit_eq fun i => ?_
      have := congrArg (fun n => Nat.testBit n i) h
      simp only [Nat.testBit_or, Nat.zero_testBit] at this ⊢
      exact (Bool.or_eq_false_iff.mp this).1
    · refine Nat.eq_of_testBit_eq fun i => ?_
      have := congrArg (fun n => Nat.testBit n i) h
      simp only [Nat.testBit_or, Nat.zero_testBit] at this ⊢
      exact (Bool.or_eq_false_iff.mp this).2
  · rintro ⟨rfl, rfl⟩
    rfl

theorem or_and_right (a b c : Nat) : (a ||| b) &&& c = (a &&& c) ||| (b &&& c) := by
  refine Nat.eq_of_testBit_eq fun i => ?_
  simp only [Nat.testBit_or, Nat.testBit_and, Bool.and_or_distrib_right]

theorem orFold_and_eq_zero (m : Int → Int → Nat) (M : Nat) (ps : List (Int × Int)) (A : Nat) :
    (ps.foldl (fun a p => a ||| m p.1 p.2) A) &&& M = 0 ↔
      A &&& M = 0 ∧ ∀ p ∈ ps, m p.1 p.2 &&& M = 0 := by
  induction ps generalizing A with
  | nil => simp
  | cons q t ih =>
    simp only [List.foldl_cons]
    rw [ih, or_and_right, or_eq_zero_iff]
    constructor
    · rintro ⟨⟨h1, h2⟩, h3⟩
      exact ⟨h1, fun p hp => by
        rcases List.mem_cons.mp hp with h | h
        · subst h; exact h2
        · exact h3 p h⟩
    · rintro ⟨h1, h2⟩
      exact ⟨⟨h1, h2 q (List.mem_cons_self q t)⟩,
        fun p hp => h2 p (List.mem_cons_of_mem _ hp)⟩

/-- The masked-pixel scan over a sub-image meets the bad-bit mask exactly
when some pixel of its box does. -/
theorem maskOrOver_and_ne_zero (img : MaskedImage) (M : Nat) :
    maskOrOver img &&& M ≠ 0 ↔ ∃ p ∈ img.bbox.points, img.mask p.1 p.2 &&& M ≠ 0 := by
  rw [maskOrOver, ← not_iff_not]
  push_neg
  rw [orFold_and_eq_zero]
  simp

/-! ### Sub-image extraction and the contamination check -/

theorem extractSub_isSome_iff (img : MaskedImage) (b : Box2I) :
    (extractSub img b).isSome = true ↔ img.bbox.containsBox b = true := by
  unfold extractSub
  by_cases h : img.bbox.containsBox b = true
  · simp [h]
  · simp [h]

theorem extractSub_isNone_iff (img : MaskedImage) (b : Box2I) :
    (extractSub img b).isNone = true ↔ ¬ img.bbox.containsBox b = true := by
  unfold extractSub
  by_cases h : img.bbox.containsBox b = true
  · simp [h]
  · simp [h]

theorem extractSub_of_contains (img : MaskedImage) (b : Box2I)
    (h : img.bbox.containsBox b = true) :
    extractSub img b = some { bbox := b, mask := img.mask } := by
  unfold extractSub
  simp [h]

/-- The `try` block fails exactly when one of the extractions raises or one
of the two masked-pixel scans meets the bad-bit mask over a pixel of the
grown bounding box. -/
theorem subimageHasFailed_iff (tImg sImg : MaskedImage) (b : Box2I) (M : Nat) :
    subimageHasFailed tImg sImg b M = true ↔
      (extractSub tImg b).isNone = true ∨ (extractSub sImg b).isNone = true ∨
      (∃ p ∈ b.points, tImg.mask p.1 p.2 &&& M ≠ 0) ∨
      (∃ p ∈ b.points, sImg.mask p.1 p.2 &&& M ≠ 0) := by
  unfold subimageHasFailed
  by_cases ht : tImg.bbox.containsBox b = true
  · by_cases hs : sImg.bbox.containsBox b = true
    · rw [extractSub_of_contains tImg b ht, extractSub_of_contains sImg b hs]
      have hne : ((some { bbox := b, mask := tImg.mask } : Option MaskedImage).isNone = true)
          ↔ False := by simp
      have hne2 : ((some { bbox := b, mask := sImg.mask } : Option MaskedImage).isNone = true)
          ↔ False := by simp
      rw [hne, hne2]
      simp only [false_or]
      rw [Bool.or_eq_true, decide_eq_true_iff, decide_eq_true_iff,
        maskOrOver_and_ne_zero, maskOrOver_and_ne_zero]
    · have hnone : extractSub sImg b = none := by
        unfold extractSub
        simp [hs]
      rw [extractSub_of_contains tImg b ht, hnone]
      simp
  · have hnone : extractSub tImg b = none := by
      unfold extractSub
      simp [ht]
    rw [hnone]
    cases extractSub sImg b <;> simp

/-! ### State threading of `growCandidate` -/

/-- The accept/reject decision of `growCandidate` does not depend on the
candidate list, and the candidate list is only ever extended on the right by
what the same call starting from the empty list would produce. -/
theorem growCandidate_state (det : KernelCandidateDetection) (fuel : Nat)
    (fp : Footprint) (tImg sImg : MaskedImage) (st : List Footprint) :
    (growCandidate det fuel fp tImg sImg st).fst =
      (growCandidate det fuel fp tImg sImg []).fst ∧
    (growCandidate det fuel fp tImg sImg st).snd =
      st ++ (growCandidate det fuel fp tImg sImg []).snd := by
  induction fuel generalizing fp st with
  | zero => simp [growCandidate]
  | succ n ih =>
    by_cases hover : getArea fp > toSizeT det.fpNpixMax
    · simp only [growCandidate, if_pos hover]
      exact ih (coreOf fp) st
    · simp only [growCandidate, if_neg hover]
      unfold growTail
      by_cases hbb : tImg.bbox.containsBox (bboxOf (dilate det.fpGrowPix fp)) = true
      · simp only [hbb, Bool.not_true, Bool.false_eq_true, if_false]
        by_cases hfail :
            subimageHasFailed tImg sImg (bboxOf (dilate det.fpGrowPix fp)) det.badBitMask = true
        · simp [hfail]
        · simp [hfail]
      · have hbb' : tImg.bbox.containsBox (bboxOf (dilate det.fpGrowPix fp)) = false :=
          Bool.not_eq_true _ ▸ (by simpa using hbb)
        simp [hbb']

/-- Starting from the empty candidate list, a rejecting call appends
nothing; an accepting call appends exactly the dilation of the footprint
obtained from the input by finitely many oversize-core replacements. -/
theorem growCandidate_nil_cases (det : KernelCandidateDetection) (fuel : Nat)
    (fp : Footprint) (tImg sImg : MaskedImage) :
    ((growCandidate det fuel fp tImg sImg []).fst = false ∧
      (growCandidate det fuel fp tImg sImg []).snd = []) ∨
    ((growCandidate det fuel fp tImg sImg []).fst = true ∧
      ∃ k, (growCandidate det fuel fp tImg sImg []).snd =
        [dilate det.fpGrowPix (coreOf^[k] fp)]) := by
  induction fuel generalizing fp with
  | zero => simp [growCandidate]
  | succ n ih =>
    by_cases hover : getArea fp > toSizeT det.fpNpixMax
    · simp only [growCandidate, if_pos hover]
      rcases ih (coreOf fp) with ⟨h1, h2⟩ | ⟨h1, k, h2⟩
      · exact Or.inl ⟨h1, h2⟩
      · refine Or.inr ⟨h1, k + 1, ?_⟩
        rw [h2, Function.iterate_succ_apply]
    · simp only [growCandidate, if_neg hover]
      unfold growTail
      by_cases hbb : tImg.bbox.containsBox (bboxOf (dilate det.fpGrowPix fp)) = true
      · simp only [hbb, Bool.not_true, Bool.false_eq_true, if_false]
        by_cases hfail :
            subimageHasFailed tImg sImg (bboxOf (dilate det.fpGrowPix fp)) det.badBitMask = true
        · simp [hfail]
        · refine Or.inr ⟨by simp [hfail], 0, by simp [hfail]⟩
      · have hbb' : tImg.bbox.containsBox (bboxOf (dilate det.fpGrowPix fp)) = false := by
          simpa using hbb
        simp [hbb']

/-- The candidate-list invariant: a stored candidate is a grown (dilated)
footprint, its bounding box lies inside both images, and over that bounding
box neither image's mask meets the bad-bit mask. -/
def CleanCandidate (det : KernelCandidateDetection) (tImg sImg : MaskedImage)
    (g : Footprint) : Prop :=
  (∃ fp0, g = dilate det.fpGrowPix fp0) ∧
  tImg.bbox.containsBox (bboxOf g) = true ∧
  sImg.bbox.containsBox (bboxOf g) = true ∧
  ∀ p ∈ (bboxOf g).points,
    tImg.mask p.1 p.2 &&& det.badBitMask = 0 ∧
    sImg.mask p.1 p.2 &&& det.badBitMask = 0

/-- Everything `growCandidate` ever appends satisfies the candidate-list
invariant. -/
theorem growCandidate_accept_clean (det : KernelCandidateDetection) (fuel : Nat)
    (fp : Footprint) (tImg sImg : MaskedImage) (g : Footprint)
    (hg : g ∈ (growCandidate det fuel fp tImg sImg []).snd) :
    CleanCandidate det tImg sImg g := by
  induction fuel generalizing fp with
  | zero => simp [growCandidate] at hg
  | succ n ih =>
    by_cases hover : getArea fp > toSizeT det.fpNpixMax
    · rw [growCandidate, if_pos hover] at hg
      exact ih (coreOf fp) hg
    · rw [growCandidate, if_neg hover] at hg
      unfold growTail at hg
      by_cases hbb : tImg.bbox.containsBox (bboxOf (dilate det.fpGrowPix fp)) = true
      · simp only [hbb, Bool.not_true, Bool.false_eq_true, if_false] at hg
        by_cases hfail :
            subimageHasFailed tImg sImg (bboxOf (dilate det.fpGrowPix fp)) det.badBitMask = true
        · simp [hfail] at hg
        · simp only [hfail, Bool.false_eq_true, if_false, List.nil_append,
            List.mem_singleton] at hg
          subst hg
          have hok := (not_iff_not.mpr
            (subimageHasFailed_iff tImg sImg
              (bboxOf (dilate det.fpGrowPix fp)) det.badBitMask)).mp (by simp [hfail])
          push_neg at hok
          obtain ⟨ht0, hs0, htc, hsc⟩ := hok
          have hs : sImg.bbox.containsBox (bboxOf (dilate det.fpGrowPix fp)) = true := by
            rw [← extractSub_isSome_iff]
            rcases h : extractSub sImg (bboxOf (dilate det.fpGrowPix fp)) with _ | v
            · rw [h] at hs0
              simp at hs0
            · simp
          refine ⟨⟨fp, rfl⟩, hbb, hs, ?_⟩
          intro p hp
          exact ⟨htc p hp, hsc p hp⟩
      · have hbb' : tImg.bbox.containsBox (bboxOf (dilate det.fpGrowPix fp)) = false := by
          simpa using hbb
        simp [hbb'] at hg

/-! ### The candidate loop of `apply` -/

theorem applyFold_append (det : KernelCandidateDetection) (fuel : Nat)
    (tImg sImg : MaskedImage) (raws : List Footprint) (st : List Footprint) :
    applyFold det fuel tImg sImg raws st =
      st ++ applyFold det fuel tImg sImg raws [] := by
  induction raws generalizing st with
  | nil => simp [applyFold]
  | cons fp rest ih =>
    show applyFold det fuel tImg sImg rest (growCandidate det fuel fp tImg sImg st).snd =
      st ++ applyFold det fuel tImg sImg rest (growCandidate det fuel fp tImg sImg []).snd
    rw [ih, (growCandidate_state det fuel fp tImg sImg st).2,
      ih ((growCandidate det fuel fp tImg sImg []).snd), List.append_assoc]

theorem growCandidate_nil_snd_nil_iff (det : KernelCandidateDetection) (fuel : Nat)
    (fp : Footprint) (tImg sImg : MaskedImage) :
    (growCandidate det fuel fp tImg sImg []).snd = [] ↔
      (growCandidate det fuel fp tImg sImg []).fst = false := by
  rcases growCandidate_nil_cases det fuel fp tImg sImg with ⟨h1, h2⟩ | ⟨h1, k, h2⟩
  · simp [h1, h2]
  · simp [h1, h2]

/-- The candidate list produced by the `apply` loop is empty exactly when
every raw footprint was rejected. -/
theorem applyFold_nil_iff (det : KernelCandidateDetection) (fuel : Nat)
    (tImg sImg : MaskedImage) (raws : List Footprint) :
    applyFold det fuel tImg sImg raws [] = [] ↔
      ∀ fp ∈ raws, (growCandidate det fuel fp tImg sImg []).fst = false := by
  induction raws with
  | nil => simp [applyFold]
  | cons fp rest ih =>
    have hstep : applyFold det fuel tImg sImg (fp :: rest) [] =
        (growCandidate det fuel fp tImg sImg []).snd ++
          applyFold det fuel tImg sImg rest [] :=
      applyFold_append det fuel tImg sImg rest _
    rw [hstep, List.append_eq_nil]
    rw [ih, growCandidate_nil_snd_nil_iff]
    constructor
    · rintro ⟨h1, h2⟩
      intro q hq
      rcases List.mem_cons.mp hq with h | h
      · subst h
        exact h1
      · exact h2 q h
    · intro h
      exact ⟨h fp (List.mem_cons_self fp rest),
        fun q hq => h q (List.mem_cons_of_mem _ hq)⟩

/-- Every member of the candidate list produced by the `apply` loop was
appended by one of the `growCandidate` calls. -/
theorem applyFold_mem (det : KernelCandidateDetection) (fuel : Nat)
    (tImg sImg : MaskedImage) (raws : List Footprint) (st : List Footprint)
    (g : Footprint) (hg : g ∈ applyFold det fuel tImg sImg raws st) :
    g ∈ st ∨ ∃ fp ∈ raws, g ∈ (growCandidate det fuel fp tImg sImg []).snd := by
  induction raws generalizing st with
  | nil =>
    simp only [applyFold, List.foldl_nil] at hg
    exact Or.inl hg
  | cons fp rest ih =>
    have hg2 : g ∈ applyFold det fuel tImg sImg rest
        (growCandidate det fuel fp tImg sImg st).snd := hg
    rcases ih _ hg2 with hmem | ⟨q, hq, hmem⟩
    · rw [(growCandidate_state det fuel fp tImg sImg st).2, List.mem_append] at hmem
      rcases hmem with h | h
      · exact Or.inl h
      · exact Or.inr ⟨fp, List.mem_cons_self fp rest, h⟩
    · exact Or.inr ⟨q, List.mem_cons_of_mem _ hq, hmem⟩

/-- One-step unfolding of `growCandidate` at positive fuel. -/
theorem growCandidate_succ (det : KernelCandidateDetection) (n : Nat)
    (fp : Footprint) (tImg sImg : MaskedImage) (st : List Footprint) :
    growCandidate det (n + 1) fp tImg sImg st =
      if getArea fp > toSizeT det.fpNpixMax then
        growCandidate det n (coreOf fp) tImg sImg st
      else
        growTail det fp tImg sImg st := rfl

/-! ### Kernel sums -/

theorem kSum_map_div (k : List ℚ) (c : ℚ) :
    kSum (k.map fun v => v / c) = kSum k / c := by
  induction k with
  | nil => simp [kSum]
  | cons a t ih =>
    simp only [kSum, List.map_cons, List.sum_cons] at *
    rw [ih, add_div]

theorem kSum_subtractKernel (a b : List ℚ) (h : a.length = b.length) :
    kSum (subtractKernel a b) = kSum a - kSum b := by
  induction a generalizing b with
  | nil =>
    cases b with
    | nil => simp [kSum, subtractKernel]
    | cons x t => simp at h
  | cons x t ih =>
    cases b with
    | nil => simp at h
    | cons y u =>
      simp only [List.length_cons, Nat.succ_inj] at h
      simp only [kSum, subtractKernel, List.zipWith_cons_cons, List.sum_cons] at *
      rw [ih u h]
      ring

theorem normalizeKernel_length (k : List ℚ) :
    (normalizeKernel k).length = k.length := by
  unfold normalizeKernel
  by_cases h : dblEpsilon < kSum k
  · simp [h]
  · simp [h]

theorem dblEpsilon_pos : (0 : ℚ) < dblEpsilon := by
  unfold dblEpsilon
  positivity

theorem kSum_normalizeKernel (k : List ℚ) (h : dblEpsilon < kSum k) :
    kSum (normalizeKernel k) = 1 := by
  unfold normalizeKernel
  rw [if_pos h, kSum_map_div]
  exact div_self (ne_of_gt (lt_trans dblEpsilon_pos h))

theorem subtractKernel_length (a b : List ℚ) :
    (subtractKernel a b).length = min a.length b.length := by
  simp [subtractKernel]

/-! ### Helper facts about OR-accumulation over recognized plane names -/

theorem badBitMask_go (registry : String → Option Nat) (names : List String) (A : Nat) :
    names.foldl
        (fun acc nm =>
          match registry nm with
          | some b => acc ||| b
          | none => acc)
        A =
      (names.filterMap registry).foldl (fun a b => a ||| b) A := by
  induction names generalizing A with
  | nil => simp
  | cons nm t ih =>
    simp only [List.foldl_cons, List.filterMap_cons]
    cases h : registry nm with
    | none => simp only [h]; exact ih A
    | some b => simp only [h, List.foldl_cons]; exact ih (A ||| b)

theorem foldl_or_testBit (l : List Nat) (A : Nat) (i : Nat) :
    (l.foldl (fun a b => a ||| b) A).testBit i =
      (A.testBit i || l.any fun b => b.testBit i) := by
  induction l generalizing A with
  | nil => simp
  | cons b t ih =>
    simp only [List.foldl_cons, List.any_cons]
    rw [ih, Nat.testBit_or, Bool.or_assoc]

/-! ### Claim theorems -/

/-- C1 (counterexample): the claim "calling
`generateFiniteDifferenceRegularization` without an explicit
`boundaryStyle` applies the TAPERED boundary handling" is false at the
concrete call `generateFiniteDifferenceRegularization(5, 5, 2)`: the
declared default argument in `BasisSets.h` is `WRAPPED`, not `TAPERED`. -/
theorem c1_default_not_tapered :
    ¬ (fdrDefaultCall 5 5 2).boundaryStyle = BoundStyle.TAPERED := by decide

/-- C1 (amended): when `generateFiniteDifferenceRegularization` is called
without an explicit `boundaryStyle`, the boundary handling applied is the
declared default `WRAPPED` (for every width, height and order). -/
theorem c1_default_boundary_wrapped (w h o : Nat) :
    (fdrDefaultCall w h o).boundaryStyle = BoundStyle.WRAPPED := rfl

/-- C6: region growth is monotonic — for every region and every
non-negative grow margin, the bounding box of the region dilated under the
Manhattan (L1) stencil contains the original region's bounding box. -/
theorem c6_grow_bbox_monotone (fp : Footprint) (r : Nat) :
    (bboxOf (dilate r fp)).containsBox (bboxOf fp) = true := by
  match fp with
  | [] =>
    rw [dilate_nil]
    decide
  | p :: rest =>
    refine containsBox_bboxOf _ p rest ?_
    intro q hq
    exact bboxOf_containsPt _ q (mem_dilate_self r (p :: rest) q hq)

/-- C8: for every configured list of bad mask-plane names, an unknown name
is recovered locally (the registry's failure is caught, its bit omitted,
and the constructor completes — the model is total), and the resulting
bad-bit mask is the bitwise OR of the bit masks of exactly the recognized
names: its OR-fold form, and bit-for-bit, a bit is set exactly when some
recognized name's bit mask sets it. -/
theorem c8_bad_bit_mask (registry : String → Option Nat) (names : List String) :
    computeBadBitMask registry names =
      (names.filterMap registry).foldl (fun a b => a ||| b) 0 ∧
    ∀ i, (computeBadBitMask registry names).testBit i = true ↔
      ∃ nm ∈ names, ∃ b, registry nm = some b ∧ b.testBit i = true := by
  have heq : computeBadBitMask registry names =
      (names.filterMap registry).foldl (fun a b => a ||| b) 0 :=
    badBitMask_go registry names 0
  refine ⟨heq, fun i => ?_⟩
  rw [heq, foldl_or_testBit]
  simp only [Nat.zero_testBit, Bool.false_or, List.any_eq_true, List.mem_filterMap]
  constructor
  · rintro ⟨b, ⟨nm, hnm, hreg⟩, hbit⟩
    exact ⟨nm, hnm, b, hreg, hbit⟩
  · rintro ⟨nm, hnm, b, hreg, hbit⟩
    exact ⟨b, ⟨nm, hnm, hreg⟩, hbit⟩

/-- C2: for every pair of images and every configuration, the top-level
`apply` raises an error to the caller if and only if zero candidates were
accepted after processing the full list of detected raw regions (first
conjunct); when at least one candidate is accepted, `apply` returns
normally (second conjunct). -/
theorem c2_apply_fatal_iff (det : KernelCandidateDetection) (fuel : Nat)
    (tImg sImg : MaskedImage) (raws : List Footprint) :
    (applyModel det fuel tImg sImg raws =
        Except.error "Unable to find any footprints for Psf matching" ↔
      ∀ fp ∈ raws, (growCandidate det fuel fp tImg sImg []).fst = false) ∧
    ((applyModel det fuel tImg sImg raws).isOk = true ↔
      ∃ fp ∈ raws, (growCandidate det fuel fp tImg sImg []).fst = true) := by
  simp only [applyModel]
  by_cases h : (applyFold det fuel tImg sImg raws []).length = 0
  · have hnil : applyFold det fuel tImg sImg raws [] = [] :=
      List.length_eq_zero.mp h
    have hall := (applyFold_nil_iff det fuel tImg sImg raws).mp hnil
    constructor
    · simp only [h, if_pos]
      exact ⟨fun _ => hall, fun _ => by trivial⟩
    · simp only [h, if_pos]
      constructor
      · intro hok
        simp [Except.isOk, Except.toBool] at hok
      · rintro ⟨fp, hfp, hacc⟩
        have := hall fp hfp
        rw [this] at hacc
        cases hacc
  · have hne : ¬ applyFold det fuel tImg sImg raws [] = [] := by
      intro hc
      exact h (by rw [hc]; rfl)
    constructor
    · simp only [h, if_neg]
      constructor
      · intro hc
        cases hc
      · intro hall
        exact absurd ((applyFold_nil_iff det fuel tImg sImg raws).mpr hall) hne
    · simp only [h, if_neg]
      constructor
      · intro _
        by_contra hno
        push_neg at hno
        have hall : ∀ fp ∈ raws, (growCandidate det fuel fp tImg sImg []).fst = false := by
          intro fp hfp
          have := hno fp hfp
          revert this
          cases (growCandidate det fuel fp tImg sImg []).fst <;> simp
        exact absurd ((applyFold_nil_iff det fuel tImg sImg raws).mpr hall) hne
      · intro _
        simp [Except.isOk, Except.toBool]

/-- C3: for every candidate that reaches the growth stage (it is not
oversized) and whose grown bounding box lies inside the template image,
`growCandidate` rejects (returns `false`) if and only if sub-image
extraction from either image raises, or some pixel of the template
sub-image's mask ANDed with the bad-bit mask is nonzero, or some pixel of
the science sub-image's mask ANDed with the bad-bit mask is nonzero —
contamination in either image alone suffices. -/
theorem c3_reject_iff_contaminated (det : KernelCandidateDetection)
    (tImg sImg : MaskedImage) (fp : Footprint) (st : List Footprint) (fuel : Nat)
    (hnotover : ¬ getArea fp > toSizeT det.fpNpixMax)
    (hbb : tImg.bbox.containsBox (bboxOf (dilate det.fpGrowPix fp)) = true) :
    (growCandidate det (fuel + 1) fp tImg sImg st).fst = false ↔
      (extractSub tImg (bboxOf (dilate det.fpGrowPix fp))).isNone = true ∨
      (extractSub sImg (bboxOf (dilate det.fpGrowPix fp))).isNone = true ∨
      (∃ p ∈ (bboxOf (dilate det.fpGrowPix fp)).points,
        tImg.mask p.1 p.2 &&& det.badBitMask ≠ 0) ∨
      (∃ p ∈ (bboxOf (dilate det.fpGrowPix fp)).points,
        sImg.mask p.1 p.2 &&& det.badBitMask ≠ 0) := by
  rw [growCandidate_succ, if_neg hnotover, ← subimageHasFailed_iff]
  unfold growTail
  simp only [hbb, Bool.not_true, Bool.false_eq_true, if_false]
  by_cases hfail :
      subimageHasFailed tImg sImg (bboxOf (dilate det.fpGrowPix fp)) det.badBitMask = true
  · simp [hfail]
  · simp [hfail]

/-- C4: for every not-oversized raw region whose grown bounding box is not
fully contained in the template image, `growCandidate` returns `false` with
the candidate list unchanged.  The mask contents of both images are
universally quantified and unconstrained, so the contamination check plays
no role on this path, and the model raises nothing. -/
theorem c4_bounds_guard_rejects (det : KernelCandidateDetection)
    (tImg sImg : MaskedImage) (fp : Footprint) (st : List Footprint) (fuel : Nat)
    (hnotover : ¬ getArea fp > toSizeT det.fpNpixMax)
    (hout : tImg.bbox.containsBox (bboxOf (dilate det.fpGrowPix fp)) = false) :
    growCandidate det (fuel + 1) fp tImg sImg st = (false, st) := by
  rw [growCandidate_succ, if_neg hnotover]
  unfold growTail
  simp [hout]

/-- C5: for every raw region whose pixel count exceeds the configured
maximum (with `fpNpixMax ≥ 1` in the C++ `int` range), `growCandidate`
replaces it with the single-pixel region at its bounding-box centroid
(truncated midpoint), that replacement is never itself oversized, and the
recursion runs exactly once: for every fuel, two units suffice and the call
reduces to the growth/validation tail on the core. -/
theorem c5_oversize_core_terminates (det : KernelCandidateDetection)
    (tImg sImg : MaskedImage) (fp : Footprint) (st : List Footprint)
    (hmin : 1 ≤ det.fpNpixMax) (hmax : det.fpNpixMax < 2 ^ 31)
    (hover : getArea fp > toSizeT det.fpNpixMax) :
    coreOf fp = [(Int.tdiv ((bboxOf fp).minX + (bboxOf fp).maxX) 2,
                  Int.tdiv ((bboxOf fp).minY + (bboxOf fp).maxY) 2)] ∧
    getArea (coreOf fp) = 1 ∧
    ¬ getArea (coreOf fp) > toSizeT det.fpNpixMax ∧
    ∀ f, growCandidate det (f + 2) fp tImg sImg st =
      growTail det (coreOf fp) tImg sImg st := by
  have hsz : 1 ≤ toSizeT det.fpNpixMax := by
    unfold toSizeT
    have h64 : ((2 : Int) ^ 64) = 18446744073709551616 := by norm_num
    have h31 : ((2 : Int) ^ 31) = 2147483648 := by norm_num
    rw [h64]
    rw [h31] at hmax
    omega
  have hnotover : ¬ getArea (coreOf fp) > toSizeT det.fpNpixMax := by
    unfold coreOf getArea
    simp only [List.length_singleton]
    omega
  refine ⟨rfl, rfl, hnotover, fun f => ?_⟩
  rw [show f + 2 = (f + 1) + 1 from rfl, growCandidate_succ, if_pos hover,
    growCandidate_succ, if_neg hnotover]

/-- C7: candidate-list invariant — every member of the candidate list after
an `apply` pass is a grown (dilated) footprint whose bounding box lies
fully inside both the template and the science image, and over that box
neither image's mask met the bad-bit mask at detection time. -/
theorem c7_candidate_list_invariant (det : KernelCandidateDetection) (fuel : Nat)
    (tImg sImg : MaskedImage) (raws : List Footprint) (g : Footprint)
    (hg : g ∈ applyFold det fuel tImg sImg raws []) :
    CleanCandidate det tImg sImg g := by
  rcases applyFold_mem det fuel tImg sImg raws [] g hg with hmem | ⟨fp, _, hmem⟩
  · cases hmem
  · exact growCandidate_accept_clean det fuel fp tImg sImg g hmem

/-- C9 (spec-modelled: the body of `renormalizeKernelList` lives in
`BasisSets.cc`, which is not among the sources; the model follows the doc
comment of `BasisSets.h`): for every basis list whose kernels all have sums
above the numerically-zero threshold and share the first kernel's
footprint size, renormalization preserves the list length, the first
kernel's pixel sum becomes exactly 1, and every subsequent kernel's pixel
sum becomes exactly 0 (exact rationals stand in for floats, so the
floating-point tolerance is 0 here). -/
theorem c9_renormalize_sums (k0 : List ℚ) (rest : List (List ℚ))
    (h0 : dblEpsilon < kSum k0)
    (hrest : ∀ k ∈ rest, dblEpsilon < kSum k ∧ k.length = k0.length) :
    (renormalizeKernelList (k0 :: rest)).length = (k0 :: rest).length ∧
    kSum (renormalizeKernelList (k0 :: rest)).headI = 1 ∧
    ∀ k ∈ (renormalizeKernelList (k0 :: rest)).tail, kSum k = 0 := by
  simp only [renormalizeKernelList, List.headI, List.tail_cons, List.length_cons,
    List.length_map]
  refine ⟨by trivial, kSum_normalizeKernel k0 h0, ?_⟩
  intro k hk
  rcases List.mem_map.mp hk with ⟨kk, hkk, rfl⟩
  obtain ⟨hks, hlen⟩ := hrest kk hkk
  rw [kSum_subtractKernel _ _ (by rw [normalizeKernel_length, normalizeKernel_length, hlen]),
    kSum_normalizeKernel kk hks, kSum_normalizeKernel k0 h0]
  ring

/-- C10: frame property of `growCandidate` — on every rejection it returns
`false` and leaves the candidate list unchanged; on acceptance it returns
`true` and appends exactly one element to the end of the list, namely the
dilation of the footprint obtained from the input by the (finitely many)
oversize-core replacements, modifying nothing else. -/
theorem c10_growCandidate_frame (det : KernelCandidateDetection) (fuel : Nat)
    (fp : Footprint) (tImg sImg : MaskedImage) (st : List Footprint) :
    ((growCandidate det fuel fp tImg sImg st).fst = false →
      (growCandidate det fuel fp tImg sImg st).snd = st) ∧
    ((growCandidate det fuel fp tImg sImg st).fst = true →
      ∃ k, (growCandidate det fuel fp tImg sImg st).snd =
        st ++ [dilate det.fpGrowPix (coreOf^[k] fp)]) := by
  obtain ⟨hfst, hsnd⟩ := growCandidate_state det fuel fp tImg sImg st
  rcases growCandidate_nil_cases det fuel fp tImg sImg with ⟨h1, h2⟩ | ⟨h1, k, h2⟩
  · refine ⟨fun _ => ?_, fun hacc => ?_⟩
    · rw [hsnd, h2, List.append_nil]
    · rw [hfst, h1] at hacc
      cases hacc
  · refine ⟨fun hrej => ?_, fun _ => ⟨k, ?_⟩⟩
    · rw [hfst, h1] at hrej
      cases hrej
    · rw [hsnd, h2]

/-! ### Concrete fixtures for witnesses -/

/-- A configuration with a generous pixel budget, grow margin 1, and bad
bit 0 set in the bad-bit mask. -/
def detFix : KernelCandidateDetection :=
  { fpNpixMax := 100, fpGrowPix := 1, badBitMask := 1 }

/-- A configuration whose pixel budget is a single pixel. -/
def detSmall : KernelCandidateDetection :=
  { fpNpixMax := 1, fpGrowPix := 1, badBitMask := 1 }

/-- A 5×5 image with an all-zero mask. -/
def cleanImg : MaskedImage :=
  { bbox := ⟨0, 0, 4, 4⟩, mask := fun _ _ => 0 }

/-- A 5×5 image whose mask sets bit 0 at pixel (2, 2) only. -/
def dirtyImg : MaskedImage :=
  { bbox := ⟨0, 0, 4, 4⟩, mask := fun x y => if x = 2 ∧ y = 2 then 1 else 0 }

/-! ### Witnesses -/

/-- C3 witness: a one-pixel candidate at (2, 2) with grow margin 1 inside a
5×5 template is rejected when the science image's mask sets a bad bit at
(2, 2) inside the grown bounding box. -/
theorem c3_reject_iff_contaminated_witness :
    (growCandidate detFix (0 + 1) [((2 : Int), (2 : Int))] cleanImg dirtyImg []).fst
      = false :=
  (c3_reject_iff_contaminated detFix cleanImg dirtyImg [((2 : Int), (2 : Int))] [] 0
    (by decide) (by decide)).mpr
    (Or.inr (Or.inr (Or.inr ⟨((2 : Int), (2 : Int)), by decide, by decide⟩)))

/-- C4 witness: a one-pixel candidate at the corner (0, 0) grows off the
5×5 template image and is rejected with the candidate list unchanged. -/
theorem c4_bounds_guard_rejects_witness :
    growCandidate detFix (0 + 1) [((0 : Int), (0 : Int))] cleanImg cleanImg [] =
      (false, []) :=
  c4_bounds_guard_rejects detFix cleanImg cleanImg [((0 : Int), (0 : Int))] [] 0
    (by decide) (by decide)

/-- C5 witness: a two-pixel footprint against a one-pixel budget is
replaced by its core and the call reduces, with fuel 2, to the growth tail
on the core. -/
theorem c5_oversize_core_terminates_witness :
    growCandidate detSmall (0 + 2) [((0 : Int), (0 : Int)), ((4 : Int), (4 : Int))]
        cleanImg cleanImg [] =
      growTail detSmall (coreOf [((0 : Int), (0 : Int)), ((4 : Int), (4 : Int))])
        cleanImg cleanImg [] :=
  (c5_oversize_core_terminates detSmall cleanImg cleanImg
    [((0 : Int), (0 : Int)), ((4 : Int), (4 : Int))] [] (by decide) (by decide)
    (by decide)).2.2.2 0

/-- C7 witness: after a pass over one raw one-pixel footprint at (2, 2) of
two clean 5×5 images, the single stored candidate satisfies the
candidate-list invariant. -/
theorem c7_candidate_list_invariant_witness :
    CleanCandidate detFix cleanImg cleanImg (dilate 1 [((2 : Int), (2 : Int))]) :=
  c7_candidate_list_invariant detFix 2 cleanImg cleanImg [[((2 : Int), (2 : Int))]]
    (dilate 1 [((2 : Int), (2 : Int))]) (by decide)

/-- The threshold hypothesis of the C9 witness's first kernel. -/
theorem dblEpsilon_lt_kSum_oneOne : dblEpsilon < kSum [(1 : ℚ), 1] := by
  norm_num [dblEpsilon, kSum]

/-- The threshold and footprint-size hypotheses of the C9 witness's later
kernels. -/
theorem c9_witness_rest_fact :
    ∀ k ∈ [[(3 : ℚ), 1]], dblEpsilon < kSum k ∧ k.length = [(1 : ℚ), 1].length := by
  norm_num [dblEpsilon, kSum]

/-- C9 witness: renormalizing the two-kernel basis [[1, 1], [3, 1]] keeps
the length, gives the first kernel sum 1, and every later kernel sum 0. -/
theorem c9_renormalize_sums_witness :
    (renormalizeKernelList [[(1 : ℚ), 1], [3, 1]]).length =
        ([[(1 : ℚ), 1], [3, 1]] : List (List ℚ)).length ∧
    kSum (renormalizeKernelList [[(1 : ℚ), 1], [3, 1]]).headI = 1 ∧
    ∀ k ∈ (renormalizeKernelList [[(1 : ℚ), 1], [3, 1]]).tail, kSum k = 0 :=
  c9_renormalize_sums [(1 : ℚ), 1] [[3, 1]] dblEpsilon_lt_kSum_oneOne
    c9_witness_rest_fact

/-- C10 witness: a rejected candidate (grown off the image) leaves a
nonempty pre-existing candidate list exactly as it was. -/
theorem c10_growCandidate_frame_witness :
    (growCandidate detFix 1 [((0 : Int), (0 : Int))] cleanImg cleanImg
        [[((9 : Int), (9 : Int))]]).snd = [[((9 : Int), (9 : Int))]] :=
  (c10_growCandidate_frame detFix 1 [((0 : Int), (0 : Int))] cleanImg cleanImg
    [[((9 : Int), (9 : Int))]]).1 (by decide)

end IpDiffim
